import Mathlib

/-!
Verification of the JSON-tools core (`src/json_tools.py`): the dotted/bracket
path grammar (`parse_path`), the path evaluator (`pick`), deep merge
(`deep_merge`) and structural diff (`structural_diff`), shallowly embedded in
Lean.  JSON values are modelled by the inductive `JsonValue`; Python dicts
produced by `json.load` are modelled as insertion-ordered association lists
with string keys, and JSON numbers are modelled by integers (no claim in this
development depends on float-specific behaviour).  Python exceptions
(`TypeError`, `KeyError`, `IndexError`, `ValueError`) raised by the source are
modelled by the `Except PyError` monad.
-/

/-- A JSON value as produced by Python's `json.load`: objects are
insertion-ordered mappings from strings to values. -/
inductive JsonValue where
  | null : JsonValue
  | bool (b : Bool) : JsonValue
  | num (n : Int) : JsonValue
  | str (s : String) : JsonValue
  | arr (elements : List JsonValue) : JsonValue
  | obj (fields : List (String × JsonValue)) : JsonValue

/-- The Python exceptions that the source can raise while parsing a path or
resolving it: `TypeError` (bad subscript type), `KeyError` (missing dict key),
`IndexError` (list index out of range), `ValueError` (from `str.index` and
`int`). -/
inductive PyError where
  | typeError : PyError
  | keyError : PyError
  | indexError : PyError
  | valueError : PyError
deriving DecidableEq

/-- A token produced by `parse_path`: the Python code returns pairs
`(token, is_index)` where `token` is a `str` when `is_index` is false and an
`int` when it is true; the two shapes are captured by the two constructors. -/
inductive Token where
  | key (k : String) : Token
  | index (i : Int) : Token
deriving DecidableEq

/-- Characters stripped by Python's `int(str)` conversion (ASCII whitespace). -/
def isPySpace (c : Char) : Bool :=
  c = ' ' || c = '\t' || c = '\n' || c = '\r' || c = '\x0b' || c = '\x0c'

/-- Strip leading and trailing whitespace, as `int(str)` does before parsing. -/
def trimWS (cs : List Char) : List Char :=
  ((cs.dropWhile isPySpace).reverse.dropWhile isPySpace).reverse

/-- Continue reading a decimal literal after its first digit, accumulating the
value; a single underscore is allowed between two digits (Python's numeric
literal rule for `int(str)`). -/
def digitsVal : Nat → List Char → Option Nat
  | acc, [] => some acc
  | _, ['_'] => none
  | acc, '_' :: c :: rest =>
    if c.isDigit then digitsVal (acc * 10 + (c.toNat - 48)) rest else none
  | acc, c :: rest =>
    if c.isDigit then digitsVal (acc * 10 + (c.toNat - 48)) rest else none

/-- Read a nonempty unsigned decimal literal (first character must be a
digit). -/
def pyIntCore : List Char → Option Nat
  | [] => none
  | c :: rest => if c.isDigit then digitsVal (c.toNat - 48) rest else none

/-- Model of Python's `int(str)` on ASCII input: surrounding whitespace is
stripped, an optional single sign is allowed, and the remainder must be a
nonempty run of decimal digits with single underscores permitted between
digits.  Returns `none` where `int` raises `ValueError`. -/
def pyInt (cs : List Char) : Option Int :=
  match trimWS cs with
  | '+' :: rest => (pyIntCore rest).map (fun n => (n : Int))
  | '-' :: rest => (pyIntCore rest).map (fun n => -(n : Int))
  | t => (pyIntCore t).map (fun n => (n : Int))

/-- State of the `parse_path` scanning loop: `plain buf` is the main loop with
the pending key characters `buf`; `bracket acc` is inside `[...]` with the
content read so far (the Python code reaches the same configuration by jumping
to `path.index("]", i)`); `afterClose` is just after a `]`, where one `.` is
skipped if present. -/
inductive PState where
  | plain (buf : List Char) : PState
  | bracket (acc : List Char) : PState
  | afterClose : PState

/-- Token emission `if buf: tokens.append((buf, False))`: emit the pending key
characters as a key token unless empty. -/
def flushBuf (buf : List Char) (ts : List Token) : List Token :=
  if buf = [] then ts else Token.key (String.mk buf) :: ts

/-- The character-scanning loop of `parse_path`.  `.` flushes the pending key;
`[` flushes the pending key and reads the bracket content up to the matching
`]` (end of input before `]` is the `ValueError` Python raises from
`path.index`); the content is converted with `int` and emitted as an index
token; after `]` a single `.` is skipped; any other character is appended to
the pending key. -/
def pGo : List Char → PState → Except PyError (List Token)
  | [], .plain buf => .ok (flushBuf buf [])
  | [], .bracket _ => .error .valueError
  | [], .afterClose => .ok []
  | c :: rest, .plain buf =>
    if c = '.' then
      match pGo rest (.plain []) with
      | .error e => .error e
      | .ok ts => .ok (flushBuf buf ts)
    else if c = '[' then
      match pGo rest (.bracket []) with
      | .error e => .error e
      | .ok ts => .ok (flushBuf buf ts)
    else
      pGo rest (.plain (buf ++ [c]))
  | c :: rest, .bracket acc =>
    if c = ']' then
      match pyInt acc with
      | none => .error .valueError
      | some n =>
        match pGo rest .afterClose with
        | .error e => .error e
        | .ok ts => .ok (Token.index n :: ts)
    else
      pGo rest (.bracket (acc ++ [c]))
  | c :: rest, .afterClose =>
    if c = '.' then
      pGo rest (.plain [])
    else if c = '[' then
      match pGo rest (.bracket []) with
      | .error e => .error e
      | .ok ts => .ok ts
    else
      pGo rest (.plain [c])

/-- Parse a dotted/bracket path string: scan the whole string starting in the
main loop with an empty pending key (`parse_path(path)` in the source). -/
def parse_path (path : String) : Except PyError (List Token) :=
  pGo path.data (.plain [])

/-- Python dict lookup on an insertion-ordered association list (keys are
unique in any dict produced by `json.load`, so first-match lookup coincides
with dict lookup). -/
def lookupKey : List (String × JsonValue) → String → Option JsonValue
  | [], _ => none
  | (k2, v) :: rest, k => if k2 = k then some v else lookupKey rest k

/-- Python sequence indexing arithmetic: a negative index counts from the end;
the access succeeds exactly when the adjusted index is in `[0, n)`. -/
def pyListIndex (n : Nat) (i : Int) : Option Nat :=
  let j := if i < 0 then i + n else i
  if 0 ≤ j ∧ j < (n : Int) then some j.toNat else none

/-- Model of the Python subscript expression `cur[token]` as it behaves on
JSON values: dicts look up string keys (`KeyError` when absent, and also for
an integer token, since `json.load` dicts only have string keys); lists index
with Python's negative-index rule (`IndexError` out of range, `TypeError` for
a string token); strings index their characters the same way, yielding a
one-character string; `null`, booleans and numbers are not subscriptable
(`TypeError`). -/
def pySubscript : JsonValue → Token → Except PyError JsonValue
  | .obj fields, .key k =>
    match lookupKey fields k with
    | some v => .ok v
    | none => .error .keyError
  | .obj _, .index _ => .error .keyError
  | .arr xs, .index i =>
    match pyListIndex xs.length i with
    | some j => .ok (xs.getD j .null)
    | none => .error .indexError
  | .arr _, .key _ => .error .typeError
  | .str s, .index i =>
    match pyListIndex s.data.length i with
    | some j => .ok (.str (String.mk [s.data.getD j ' ']))
    | none => .error .indexError
  | .str _, .key _ => .error .typeError
  | _, _ => .error .typeError

/-- The loop of `pick`: resolve each parsed token in turn against the current
value, propagating the first raised exception. -/
def pickGo : JsonValue → List Token → Except PyError JsonValue
  | cur, [] => .ok cur
  | cur, t :: rest =>
    match pySubscript cur t with
    | .error e => .error e
    | .ok next => pickGo next rest

/-- Path evaluation (`pick(data, dotted_path)` in the source): parse the path
(exceptions from `parse_path` propagate to the caller), then resolve the
tokens left to right. -/
def pick (data : JsonValue) (dotted_path : String) : Except PyError JsonValue :=
  match parse_path dotted_path with
  | .error e => .error e
  | .ok toks => pickGo data toks

mutual

/-- Deep merge of two JSON values (`deep_merge(left, right)`): when both are
dicts, start from a copy of the left one and fold the right one's items into
it; in every other case the result is the right value. -/
def deep_merge : JsonValue → JsonValue → JsonValue
  | .obj l, .obj r => .obj (mergeInto l r)
  | _, right => right
termination_by _ r => (sizeOf r, 0)

/-- The loop of `deep_merge` over `right.items()`, processing the right
operand's bindings in iteration order. -/
def mergeInto : List (String × JsonValue) → List (String × JsonValue) →
    List (String × JsonValue)
  | out, [] => out
  | out, (k, v) :: rest => mergeInto (insertOne out k v) rest
termination_by _ r => (sizeOf r, 0)

/-- One iteration of the `deep_merge` loop: `out[k] = deep_merge(out[k], v)`
when `k` is already bound (the binding keeps its position, as dict assignment
does), otherwise `out[k] = v` appends the new binding at the end. -/
def insertOne : List (String × JsonValue) → String → JsonValue →
    List (String × JsonValue)
  | [], k, v => [(k, v)]
  | (k2, v2) :: rest, k, v =>
    if k2 = k then (k2, deep_merge v2 v) :: rest
    else (k2, v2) :: insertOne rest k v
termination_by out _ v => (sizeOf v, sizeOf out)

end

/-- The keys of an association list, in insertion order (`d.keys()`). -/
def keysOf (l : List (String × JsonValue)) : List String := l.map Prod.fst

/-- Model of Python's `sorted(...)` on a set of strings: the ascending
permutation (unique, because set elements are distinct). -/
def sortedKeys (ks : List String) : List String :=
  List.insertionSort (fun a b => a ≤ b) ks

/-- Key-set difference `sorted(set(a.keys()) - set(b.keys()))`: the distinct
keys of `a` that are not keys of `b`, in ascending order. -/
def setDiffKeys (a b : List (String × JsonValue)) : List String :=
  sortedKeys (((keysOf a).dedup).filter (fun k => !(keysOf b).contains k))

/-- The dict `{"only_in_left": [], "only_in_right": []}` returned by
`structural_diff` whenever either argument is not a dict. -/
def emptyDiffObj : JsonValue :=
  .obj [("only_in_left", .arr []), ("only_in_right", .arr [])]

/-- Structural diff of two JSON values (`structural_diff(left, right)`): for
two dicts, report the sorted key-set differences under the keys
`"only_in_left"` and `"only_in_right"`; for any other pair of values, report
two empty lists.  The result is itself the JSON value (a dict of two arrays
of strings) that the Python function returns. -/
def structural_diff (left right : JsonValue) : JsonValue :=
  match left, right with
  | .obj l, .obj r =>
    .obj [("only_in_left", .arr ((setDiffKeys l r).map JsonValue.str)),
          ("only_in_right", .arr ((setDiffKeys r l).map JsonValue.str))]
  | _, _ => emptyDiffObj

/-- Whether a JSON value is an object (a Python dict). -/
def isObj : JsonValue → Bool
  | .obj _ => true
  | _ => false

/-- Whether a JSON value is an array (a Python list). -/
def isArr : JsonValue → Bool
  | .arr _ => true
  | _ => false

/-- Well-formed JSON values: every object that occurs anywhere inside carries
pairwise-distinct keys.  Every value produced by Python's `json.load` has this
shape, since Python dicts cannot hold a key twice. -/
inductive WF : JsonValue → Prop
  | null : WF .null
  | bool (b : Bool) : WF (.bool b)
  | num (n : Int) : WF (.num n)
  | str (s : String) : WF (.str s)
  | arr (xs : List JsonValue) : (∀ x ∈ xs, WF x) → WF (.arr xs)
  | obj (fs : List (String × JsonValue)) : (keysOf fs).Nodup →
      (∀ p ∈ fs, WF p.2) → WF (.obj fs)

/-- The value a key of the left operand receives in a merged object: merged
recursively with the right operand's value when the key is shared, otherwise
kept unchanged. -/
def mergedLeftField (r : List (String × JsonValue)) (p : String × JsonValue) :
    String × JsonValue :=
  match lookupKey r p.1 with
  | some w => (p.1, deep_merge p.2 w)
  | none => p

/-- Whether a JSON value is a string. -/
def isStr : JsonValue → Bool
  | .str _ => true
  | _ => false

mutual

/-- Specification-side well-formedness of the bracket structure of a path
string, written from the amended claim's words: a path is rejected exactly
when some `[` has no matching `]` before end-of-string, or when a bracket's
content (the characters up to its matching `]`) is not accepted by Python's
`int`.  Characters outside brackets never cause a failure. -/
def bracketsOk : List Char → Bool
  | [] => true
  | c :: rest => if c = '[' then bracketContent [] rest else bracketsOk rest

/-- Scan a bracket's content: accumulate characters until the matching `]`,
then require the content to be accepted by `int` and the remainder of the
path to be well-bracketed; reaching end-of-string first is the unclosed
bracket failure. -/
def bracketContent (acc : List Char) : List Char → Bool
  | [] => false
  | c :: rest =>
    if c = ']' then (pyInt acc).isSome && bracketsOk rest
    else bracketContent (acc ++ [c]) rest

end

theorem deep_merge_obj_obj (l r : List (String × JsonValue)) :
    deep_merge (.obj l) (.obj r) = .obj (mergeInto l r) := by
  simp [deep_merge]

theorem mergeInto_nil (out : List (String × JsonValue)) :
    mergeInto out [] = out := by
  simp [mergeInto]

theorem mergeInto_cons (out rest : List (String × JsonValue)) (k : String)
    (v : JsonValue) :
    mergeInto out ((k, v) :: rest) = mergeInto (insertOne out k v) rest := by
  simp [mergeInto]

theorem insertOne_nil (k : String) (v : JsonValue) :
    insertOne [] k v = [(k, v)] := by
  simp [insertOne]

theorem insertOne_cons (rest : List (String × JsonValue)) (k2 k : String)
    (v2 v : JsonValue) :
    insertOne ((k2, v2) :: rest) k v =
      if k2 = k then (k2, deep_merge v2 v) :: rest
      else (k2, v2) :: insertOne rest k v := by
  simp [insertOne]

theorem deep_merge_not_obj (x y : JsonValue)
    (h : isObj x = false ∨ isObj y = false) : deep_merge x y = y := by
  cases x <;> cases y <;> simp_all [deep_merge, isObj]

theorem lookupKey_eq_none_iff (l : List (String × JsonValue)) (k : String) :
    lookupKey l k = none ↔ k ∉ keysOf l := by
  induction l with
  | nil => simp [lookupKey, keysOf]
  | cons p rest ih =>
    obtain ⟨k2, v⟩ := p
    by_cases h : k2 = k
    · subst h
      simp [lookupKey, keysOf]
    · have h2 : ¬ (k = k2) := fun e => h e.symm
      simp [lookupKey, keysOf, h, h2, ih]

theorem lookupKey_append (a b : List (String × JsonValue)) (k : String) :
    lookupKey (a ++ b) k =
      match lookupKey a k with
      | some v => some v
      | none => lookupKey b k := by
  induction a with
  | nil => simp [lookupKey]
  | cons p rest ih =>
    obtain ⟨k2, v⟩ := p
    by_cases h : k2 = k <;> simp [lookupKey, h, ih]

theorem lookupKey_of_nodup (l : List (String × JsonValue)) (k : String)
    (v : JsonValue) (hnd : (keysOf l).Nodup) (hm : (k, v) ∈ l) :
    lookupKey l k = some v := by
  induction l with
  | nil => cases hm
  | cons p rest ih =>
    obtain ⟨k2, v2⟩ := p
    simp only [keysOf, List.map_cons, List.nodup_cons] at hnd
    rcases List.mem_cons.mp hm with h | h
    · obtain ⟨rfl, rfl⟩ := Prod.mk.injEq .. ▸ h
      simp [lookupKey]
    · have hk : k2 ≠ k := by
        rintro rfl
        exact hnd.1 (List.mem_map_of_mem Prod.fst h)
      simp [lookupKey, hk]
      exact ih hnd.2 h

theorem insertOne_of_lookup_none (l : List (String × JsonValue)) (k : String)
    (v : JsonValue) (h : lookupKey l k = none) :
    insertOne l k v = l ++ [(k, v)] := by
  induction l with
  | nil => simp [insertOne]
  | cons p rest ih =>
    obtain ⟨k2, v2⟩ := p
    by_cases hk : k2 = k
    · subst hk
      simp [lookupKey] at h
    · simp only [lookupKey, if_neg hk] at h
      simp [insertOne, hk, ih h]

theorem keysOf_insertOne_of_mem (l : List (String × JsonValue)) (k : String)
    (v : JsonValue) (h : k ∈ keysOf l) :
    keysOf (insertOne l k v) = keysOf l := by
  induction l with
  | nil => simp [keysOf] at h
  | cons p rest ih =>
    obtain ⟨k2, v2⟩ := p
    by_cases hk : k2 = k
    · subst hk
      simp [insertOne, keysOf]
    · have h3 : ¬ (k = k2) := fun e => hk e.symm
      have h2 : k ∈ keysOf rest := by simpa [keysOf, h3] using h
      have ih2 := ih h2
      simp only [insertOne, if_neg hk]
      simp only [keysOf, List.map_cons] at ih2 ⊢
      rw [ih2]

theorem keysOf_insertOne_of_not_mem (l : List (String × JsonValue)) (k : String)
    (v : JsonValue) (h : k ∉ keysOf l) :
    keysOf (insertOne l k v) = keysOf l ++ [k] := by
  rw [insertOne_of_lookup_none l k v ((lookupKey_eq_none_iff l k).mpr h)]
  simp [keysOf]

theorem nodup_keysOf_insertOne (l : List (String × JsonValue)) (k : String)
    (v : JsonValue) (h : (keysOf l).Nodup) :
    (keysOf (insertOne l k v)).Nodup := by
  by_cases hm : k ∈ keysOf l
  · rw [keysOf_insertOne_of_mem l k v hm]
    exact h
  · rw [keysOf_insertOne_of_not_mem l k v hm]
    simp [List.nodup_append, h, hm]

theorem lookupKey_insertOne_ne (l : List (String × JsonValue)) (k q : String)
    (v : JsonValue) (h : q ≠ k) :
    lookupKey (insertOne l k v) q = lookupKey l q := by
  induction l with
  | nil =>
    have h2 : ¬ (k = q) := fun e => h e.symm
    simp [insertOne, lookupKey, h2]
  | cons p rest ih =>
    obtain ⟨k2, v2⟩ := p
    by_cases hk : k2 = k
    · subst hk
      have h2 : ¬ (k2 = q) := fun e => h e.symm
      simp [insertOne, lookupKey, h2]
    · by_cases hq : k2 = q
      · subst hq
        simp [insertOne, hk, lookupKey]
      · simp [insertOne, hk, lookupKey, hq, ih]

theorem mergedLeftField_nil (p : String × JsonValue) :
    mergedLeftField [] p = p := by
  simp [mergedLeftField, lookupKey]

theorem mergedLeftField_cons_ne (rest : List (String × JsonValue)) (k : String)
    (v : JsonValue) (p : String × JsonValue) (h : p.1 ≠ k) :
    mergedLeftField ((k, v) :: rest) p = mergedLeftField rest p := by
  have h2 : ¬ (k = p.1) := fun e => h e.symm
  simp [mergedLeftField, lookupKey, h2]

theorem mem_keysOf_of_mem (l : List (String × JsonValue))
    (p : String × JsonValue) (h : p ∈ l) : p.1 ∈ keysOf l :=
  List.mem_map_of_mem Prod.fst h

theorem map_insertOne_mergedLeftField (l : List (String × JsonValue))
    (rest : List (String × JsonValue)) (k : String) (v : JsonValue)
    (hnd : (keysOf l).Nodup) (hk : k ∉ keysOf rest) (hm : k ∈ keysOf l) :
    (insertOne l k v).map (mergedLeftField rest) =
      l.map (mergedLeftField ((k, v) :: rest)) := by
  induction l with
  | nil => simp [keysOf] at hm
  | cons p t ih =>
    obtain ⟨k2, v2⟩ := p
    simp only [keysOf, List.map_cons, List.nodup_cons] at hnd
    by_cases h : k2 = k
    · subst h
      rw [insertOne_cons, if_pos rfl]
      simp only [List.map_cons]
      have hnone : lookupKey rest k2 = none :=
        (lookupKey_eq_none_iff rest k2).mpr hk
      have hhead : mergedLeftField rest (k2, deep_merge v2 v) =
          (k2, deep_merge v2 v) := by
        simp [mergedLeftField, hnone]
      have hhead2 : mergedLeftField ((k2, v) :: rest) (k2, v2) =
          (k2, deep_merge v2 v) := by
        simp [mergedLeftField, lookupKey]
      rw [hhead, hhead2]
      have htail : t.map (mergedLeftField rest) =
          t.map (mergedLeftField ((k2, v) :: rest)) := by
        apply List.map_congr_left
        intro q hq
        have hq1 : q.1 ≠ k2 := by
          intro e
          exact hnd.1 (e ▸ mem_keysOf_of_mem t q hq)
        exact (mergedLeftField_cons_ne rest k2 v q hq1).symm
      rw [htail]
    · rw [insertOne_cons, if_neg h]
      simp only [List.map_cons]
      have hm2 : k ∈ keysOf t := by
        have h3 : ¬ (k = k2) := fun e => h e.symm
        simpa [keysOf, h3] using hm
      have hhead : mergedLeftField ((k, v) :: rest) (k2, v2) =
          mergedLeftField rest (k2, v2) :=
        mergedLeftField_cons_ne rest k v (k2, v2) h
      rw [hhead, ih hnd.2 hm2]

theorem mergeInto_eq (r : List (String × JsonValue)) :
    ∀ l : List (String × JsonValue), (keysOf l).Nodup → (keysOf r).Nodup →
    mergeInto l r = l.map (mergedLeftField r) ++
      r.filter (fun p => (lookupKey l p.1).isNone) := by
  induction r with
  | nil =>
    intro l hl _
    rw [mergeInto_nil]
    have : l.map (mergedLeftField []) = l := by
      have h2 : l.map (mergedLeftField []) = l.map id :=
        List.map_congr_left (fun p _ => mergedLeftField_nil p)
      rw [h2, List.map_id]
    rw [this]
    simp
  | cons p rest ih =>
    intro l hl hr
    obtain ⟨k, v⟩ := p
    simp only [keysOf, List.map_cons, List.nodup_cons] at hr
    have hkrest : k ∉ keysOf rest := hr.1
    rw [mergeInto_cons]
    have hnd2 : (keysOf (insertOne l k v)).Nodup :=
      nodup_keysOf_insertOne l k v hl
    rw [ih (insertOne l k v) hnd2 hr.2]
    by_cases hm : k ∈ keysOf l
    · have hmap := map_insertOne_mergedLeftField l rest k v hl hkrest hm
      have hfilter : rest.filter
            (fun q => (lookupKey (insertOne l k v) q.1).isNone) =
          rest.filter (fun q => (lookupKey l q.1).isNone) := by
        apply List.filter_congr
        intro q hq
        have hq1 : q.1 ≠ k := by
          intro e
          exact hkrest (e ▸ mem_keysOf_of_mem rest q hq)
        rw [lookupKey_insertOne_ne l k q.1 v hq1]
      have hknone : (lookupKey l k).isNone = false := by
        rw [Bool.eq_false_iff]
        intro hnone
        exact ((lookupKey_eq_none_iff l k).mp
          (Option.isNone_iff_eq_none.mp hnone)) hm
      rw [hmap, hfilter, List.filter_cons]
      simp [hknone]
    · have hnone : lookupKey l k = none := (lookupKey_eq_none_iff l k).mpr hm
      rw [insertOne_of_lookup_none l k v hnone]
      have hmap : (l ++ [(k, v)]).map (mergedLeftField rest) =
          l.map (mergedLeftField ((k, v) :: rest)) ++ [(k, v)] := by
        rw [List.map_append]
        have h1 : [(k, v)].map (mergedLeftField rest) = [(k, v)] := by
          have hnone2 : lookupKey rest k = none :=
            (lookupKey_eq_none_iff rest k).mpr hkrest
          simp [mergedLeftField, hnone2]
        have h2 : l.map (mergedLeftField rest) =
            l.map (mergedLeftField ((k, v) :: rest)) := by
          apply List.map_congr_left
          intro q hq
          have hq1 : q.1 ≠ k := by
            intro e
            exact hm (e ▸ mem_keysOf_of_mem l q hq)
          exact (mergedLeftField_cons_ne rest k v q hq1).symm
        rw [h1, h2]
      have hfilter : rest.filter
            (fun q => (lookupKey (l ++ [(k, v)]) q.1).isNone) =
          rest.filter (fun q => (lookupKey l q.1).isNone) := by
        apply List.filter_congr
        intro q hq
        have hq1 : ¬ (k = q.1) := by
          intro e
          exact hkrest (e ▸ mem_keysOf_of_mem rest q hq)
        rw [lookupKey_append]
        cases hcase : lookupKey l q.1 with
        | some w => simp
        | none => simp [lookupKey, hq1]
      rw [hmap, hfilter, List.filter_cons]
      have hknone : (lookupKey l k).isNone = true := by
        rw [hnone]
        rfl
      simp [hknone]

theorem WF_obj_iff (fs : List (String × JsonValue)) :
    WF (.obj fs) ↔ (keysOf fs).Nodup ∧ ∀ p ∈ fs, WF p.2 := by
  constructor
  · intro h
    cases h with
    | obj fs hnd hvals => exact ⟨hnd, hvals⟩
  · intro h
    exact WF.obj fs h.1 h.2

theorem WF_arr_iff (xs : List JsonValue) :
    WF (.arr xs) ↔ ∀ x ∈ xs, WF x := by
  constructor
  · intro h
    cases h with
    | arr xs hvals => exact hvals
  · intro h
    exact WF.arr xs h

theorem WF_values_insertOne (out : List (String × JsonValue)) (k : String)
    (v : JsonValue) (hvals : ∀ p ∈ out, WF p.2) (hv : WF v)
    (hmerge : ∀ old : JsonValue, WF old → WF (deep_merge old v)) :
    ∀ p ∈ insertOne out k v, WF p.2 := by
  induction out with
  | nil =>
    intro p hp
    rw [insertOne_nil] at hp
    simp at hp
    rw [hp]
    exact hv
  | cons q rest ih =>
    obtain ⟨k2, v2⟩ := q
    intro p hp
    rw [insertOne_cons] at hp
    by_cases h : k2 = k
    · rw [if_pos h] at hp
      rcases List.mem_cons.mp hp with h2 | h2
      · rw [h2]
        exact hmerge v2 (hvals (k2, v2) (List.mem_cons_self _ _))
      · exact hvals p (List.mem_cons_of_mem _ h2)
    · rw [if_neg h] at hp
      rcases List.mem_cons.mp hp with h2 | h2
      · rw [h2]
        exact hvals (k2, v2) (List.mem_cons_self _ _)
      · exact ih (fun q hq => hvals q (List.mem_cons_of_mem _ hq)) p h2

theorem WF_mergeInto (r : List (String × JsonValue)) :
    ∀ out : List (String × JsonValue), (keysOf out).Nodup →
    (∀ p ∈ out, WF p.2) → (∀ p ∈ r, WF p.2) →
    (∀ p ∈ r, ∀ old : JsonValue, WF old → WF (deep_merge old p.2)) →
    (keysOf (mergeInto out r)).Nodup ∧ ∀ p ∈ mergeInto out r, WF p.2 := by
  induction r with
  | nil =>
    intro out hnd hvals _ _
    rw [mergeInto_nil]
    exact ⟨hnd, hvals⟩
  | cons q rest ih =>
    intro out hnd hvals hrvals hrmerge
    obtain ⟨k, v⟩ := q
    rw [mergeInto_cons]
    exact ih (insertOne out k v) (nodup_keysOf_insertOne out k v hnd)
      (WF_values_insertOne out k v hvals
        (hrvals (k, v) (List.mem_cons_self _ _))
        (hrmerge (k, v) (List.mem_cons_self _ _)))
      (fun p hp => hrvals p (List.mem_cons_of_mem _ hp))
      (fun p hp => hrmerge p (List.mem_cons_of_mem _ hp))

theorem WF_deep_merge (r : JsonValue) (hr : WF r) :
    ∀ l : JsonValue, WF l → WF (deep_merge l r) := by
  induction hr with
  | null =>
    intro l _
    rw [deep_merge_not_obj l .null (Or.inr rfl)]
    exact WF.null
  | bool b =>
    intro l _
    rw [deep_merge_not_obj l (.bool b) (Or.inr rfl)]
    exact WF.bool b
  | num n =>
    intro l _
    rw [deep_merge_not_obj l (.num n) (Or.inr rfl)]
    exact WF.num n
  | str s =>
    intro l _
    rw [deep_merge_not_obj l (.str s) (Or.inr rfl)]
    exact WF.str s
  | arr xs hvals =>
    intro l _
    rw [deep_merge_not_obj l (.arr xs) (Or.inr rfl)]
    exact WF.arr xs hvals
  | obj fs hnd hvals ih =>
    intro l hl
    cases l with
    | obj lf =>
      rw [deep_merge_obj_obj]
      obtain ⟨hlnd, hlvals⟩ := (WF_obj_iff lf).mp hl
      have h := WF_mergeInto fs lf hlnd hlvals hvals
        (fun p hp old hold => ih p hp old hold)
      exact WF.obj _ h.1 h.2
    | null =>
      rw [deep_merge_not_obj .null (.obj fs) (Or.inl rfl)]
      exact WF.obj fs hnd hvals
    | bool b =>
      rw [deep_merge_not_obj (.bool b) (.obj fs) (Or.inl rfl)]
      exact WF.obj fs hnd hvals
    | num n =>
      rw [deep_merge_not_obj (.num n) (.obj fs) (Or.inl rfl)]
      exact WF.obj fs hnd hvals
    | str s =>
      rw [deep_merge_not_obj (.str s) (.obj fs) (Or.inl rfl)]
      exact WF.obj fs hnd hvals
    | arr xs =>
      rw [deep_merge_not_obj (.arr xs) (.obj fs) (Or.inl rfl)]
      exact WF.obj fs hnd hvals

theorem insertOne_self (l : List (String × JsonValue)) (k : String)
    (v : JsonValue) (hl : lookupKey l k = some v)
    (hv : deep_merge v v = v) : insertOne l k v = l := by
  induction l with
  | nil => simp [lookupKey] at hl
  | cons p rest ih =>
    obtain ⟨k2, v2⟩ := p
    by_cases h : k2 = k
    · subst h
      rw [lookupKey, if_pos rfl] at hl
      have hv2 : v2 = v := Option.some.inj hl
      subst hv2
      rw [insertOne_cons, if_pos rfl, hv]
    · rw [lookupKey, if_neg h] at hl
      rw [insertOne_cons, if_neg h, ih hl]

theorem mergeInto_self_aux (r : List (String × JsonValue)) :
    ∀ l : List (String × JsonValue),
    (∀ p ∈ r, lookupKey l p.1 = some p.2 ∧ deep_merge p.2 p.2 = p.2) →
    mergeInto l r = l := by
  induction r with
  | nil =>
    intro l _
    exact mergeInto_nil l
  | cons p rest ih =>
    intro l h
    obtain ⟨k, v⟩ := p
    rw [mergeInto_cons]
    have hp := h (k, v) (List.mem_cons_self _ _)
    rw [insertOne_self l k v hp.1 hp.2]
    exact ih l (fun q hq => h q (List.mem_cons_of_mem _ hq))

theorem deep_merge_self (x : JsonValue) (hx : WF x) : deep_merge x x = x := by
  induction hx with
  | null => rw [deep_merge_not_obj .null .null (Or.inl rfl)]
  | bool b => rw [deep_merge_not_obj (.bool b) (.bool b) (Or.inl rfl)]
  | num n => rw [deep_merge_not_obj (.num n) (.num n) (Or.inl rfl)]
  | str s => rw [deep_merge_not_obj (.str s) (.str s) (Or.inl rfl)]
  | arr xs hvals =>
    rw [deep_merge_not_obj (.arr xs) (.arr xs) (Or.inl rfl)]
  | obj fs hnd hvals ih =>
    rw [deep_merge_obj_obj]
    have hself : ∀ p ∈ fs,
        lookupKey fs p.1 = some p.2 ∧ deep_merge p.2 p.2 = p.2 := by
      intro p hp
      refine ⟨?_, ih p hp⟩
      apply lookupKey_of_nodup fs p.1 p.2 hnd
      rw [Prod.mk.eta]
      exact hp
    rw [mergeInto_self_aux fs fs hself]

theorem string_mk_data (s : String) : String.mk s.data = s := by
  cases s
  rfl

theorem pGo_plain_run (cs : List Char) :
    ∀ (rest buf : List Char), (∀ c ∈ cs, c ≠ '.' ∧ c ≠ '[') →
    pGo (cs ++ rest) (.plain buf) = pGo rest (.plain (buf ++ cs)) := by
  induction cs with
  | nil =>
    intro rest buf _
    simp
  | cons c t ih =>
    intro rest buf h
    have hc := h c (List.mem_cons_self _ _)
    simp only [List.cons_append, pGo, List.append_eq]
    rw [if_neg hc.1, if_neg hc.2,
      ih rest (buf ++ [c]) (fun d hd => h d (List.mem_cons_of_mem _ hd))]
    simp

theorem pGo_plain_all_keys (cs : List Char) (buf : List Char)
    (h : ∀ c ∈ cs, c ≠ '.' ∧ c ≠ '[') :
    pGo cs (.plain buf) = .ok (flushBuf (buf ++ cs) []) := by
  have h2 := pGo_plain_run cs [] buf h
  rw [List.append_nil] at h2
  rw [h2]
  rfl

theorem pGo_no_bracket_ok (cs : List Char) :
    ∀ buf : List Char, (∀ c ∈ cs, c ≠ '[') →
    ∃ ts : List Token, pGo cs (.plain buf) = .ok ts := by
  induction cs with
  | nil =>
    intro buf _
    exact ⟨flushBuf buf [], rfl⟩
  | cons c t ih =>
    intro buf h
    have hc := h c (List.mem_cons_self _ _)
    have ht : ∀ d ∈ t, d ≠ '[' := fun d hd => h d (List.mem_cons_of_mem _ hd)
    by_cases hdot : c = '.'
    · obtain ⟨ts, hts⟩ := ih [] ht
      refine ⟨flushBuf buf ts, ?_⟩
      simp only [pGo]
      rw [if_pos hdot, hts]
    · obtain ⟨ts, hts⟩ := ih (buf ++ [c]) ht
      refine ⟨ts, ?_⟩
      simp only [pGo]
      rw [if_neg hdot, if_neg hc, hts]

theorem pGo_afterClose_eq (cs : List Char) :
    pGo cs .afterClose = pGo cs (.plain []) := by
  cases cs with
  | nil => rfl
  | cons c rest =>
    by_cases hdot : c = '.'
    · simp only [pGo]
      rw [if_pos hdot, if_pos hdot]
      cases h : pGo rest (.plain []) with
      | error e => rfl
      | ok ts => rfl
    · by_cases hbr : c = '['
      · simp only [pGo]
        rw [if_neg hdot, if_neg hdot, if_pos hbr, if_pos hbr]
        cases h : pGo rest (.bracket []) with
        | error e => rfl
        | ok ts => rfl
      · simp only [pGo]
        rw [if_neg hdot, if_neg hdot, if_neg hbr, if_neg hbr]
        rfl

theorem flushBuf_ne (buf : List Char) (ts : List Token) (h : buf ≠ []) :
    flushBuf buf ts = Token.key (String.mk buf) :: ts := by
  simp [flushBuf, h]

theorem pGo_step_other (c : Char) (rest buf : List Char) (h1 : c ≠ '.')
    (h2 : c ≠ '[') :
    pGo (c :: rest) (.plain buf) = pGo rest (.plain (buf ++ [c])) := by
  simp only [pGo]
  rw [if_neg h1, if_neg h2]

theorem pGo_step_dot (rest buf : List Char) :
    pGo ('.' :: rest) (.plain buf) =
      match pGo rest (.plain []) with
      | .error e => .error e
      | .ok ts => .ok (flushBuf buf ts) := by
  simp only [pGo]
  rw [if_pos trivial]

theorem pGo_step_open (rest buf : List Char) :
    pGo ('[' :: rest) (.plain buf) =
      match pGo rest (.bracket []) with
      | .error e => .error e
      | .ok ts => .ok (flushBuf buf ts) := by
  simp only [pGo]
  rw [if_neg (show ¬ ('[' = '.') by decide), if_pos trivial]

theorem pGo_step_bracket_char (c : Char) (rest acc : List Char)
    (h : c ≠ ']') :
    pGo (c :: rest) (.bracket acc) = pGo rest (.bracket (acc ++ [c])) := by
  simp only [pGo]
  rw [if_neg h]

theorem pGo_step_close (rest acc : List Char) :
    pGo (']' :: rest) (.bracket acc) =
      match pyInt acc with
      | none => .error .valueError
      | some n =>
        match pGo rest .afterClose with
        | .error e => .error e
        | .ok ts => .ok (Token.index n :: ts) := by
  simp only [pGo]
  rw [if_pos trivial]

theorem pGo_step_afterClose_dot (rest : List Char) :
    pGo ('.' :: rest) .afterClose = pGo rest (.plain []) := by
  simp only [pGo]
  rw [if_pos trivial]

theorem parse_path_dot_sep (s t : String) (hs : s.data ≠ []) (ht : t.data ≠ [])
    (hcs : ∀ c ∈ s.data, c ≠ '.' ∧ c ≠ '[')
    (hct : ∀ c ∈ t.data, c ≠ '.' ∧ c ≠ '[') :
    parse_path (s ++ "." ++ t) = .ok [.key s, .key t] := by
  show pGo (s ++ "." ++ t).data (.plain []) = .ok [.key s, .key t]
  rw [String.data_append, String.data_append,
    show ("." : String).data = ['.'] from rfl, List.append_assoc,
    pGo_plain_run s.data (['.'] ++ t.data) [] hcs]
  simp only [List.nil_append, List.singleton_append]
  rw [pGo_step_dot, pGo_plain_all_keys t.data [] hct]
  simp only [List.nil_append]
  rw [flushBuf_ne t.data [] ht, flushBuf_ne s.data _ hs,
    string_mk_data, string_mk_data]

theorem pGo_a0_start (tail : List Char) :
    pGo ('a' :: '[' :: '0' :: ']' :: tail) (.plain []) =
      match pGo tail .afterClose with
      | .error e => .error e
      | .ok ts => .ok (Token.key "a" :: Token.index 0 :: ts) := by
  rw [pGo_step_other 'a' _ _ (by decide) (by decide)]
  simp only [List.nil_append]
  rw [pGo_step_open, pGo_step_bracket_char '0' _ _ (by decide)]
  simp only [List.nil_append]
  rw [pGo_step_close, show pyInt ['0'] = some 0 from rfl]
  cases h : pGo tail .afterClose with
  | error e => rfl
  | ok ts => rfl

theorem pGo_bracketsOk_dichotomy (cs : List Char) :
    (∀ buf : List Char,
      (bracketsOk cs = true → ∃ ts, pGo cs (.plain buf) = .ok ts) ∧
      (bracketsOk cs = false → pGo cs (.plain buf) = .error .valueError)) ∧
    (∀ acc : List Char,
      (bracketContent acc cs = true → ∃ ts, pGo cs (.bracket acc) = .ok ts) ∧
      (bracketContent acc cs = false →
        pGo cs (.bracket acc) = .error .valueError)) := by
  induction cs with
  | nil =>
    constructor
    · intro buf
      constructor
      · intro _
        exact ⟨flushBuf buf [], rfl⟩
      · intro h
        simp [bracketsOk] at h
    · intro acc
      constructor
      · intro h
        simp [bracketContent] at h
      · intro _
        rfl
  | cons c rest ih =>
    constructor
    · intro buf
      by_cases hdot : c = '.'
      · subst hdot
        rw [pGo_step_dot]
        have hbr : bracketsOk ('.' :: rest) = bracketsOk rest := by
          simp [bracketsOk]
        rw [hbr]
        obtain ⟨h1, h2⟩ := ih.1 []
        constructor
        · intro hb
          obtain ⟨ts, hts⟩ := h1 hb
          rw [hts]
          exact ⟨flushBuf buf ts, rfl⟩
        · intro hb
          rw [h2 hb]
      · by_cases hbrk : c = '['
        · subst hbrk
          rw [pGo_step_open]
          have hbr : bracketsOk ('[' :: rest) = bracketContent [] rest := by
            simp [bracketsOk]
          rw [hbr]
          obtain ⟨h1, h2⟩ := ih.2 []
          constructor
          · intro hb
            obtain ⟨ts, hts⟩ := h1 hb
            rw [hts]
            exact ⟨flushBuf buf ts, rfl⟩
          · intro hb
            rw [h2 hb]
        · rw [pGo_step_other c rest buf hdot hbrk]
          have hbr : bracketsOk (c :: rest) = bracketsOk rest := by
            simp [bracketsOk, hbrk]
          rw [hbr]
          exact ih.1 (buf ++ [c])
    · intro acc
      by_cases hcl : c = ']'
      · subst hcl
        rw [pGo_step_close, pGo_afterClose_eq rest]
        have hbr : bracketContent acc (']' :: rest) =
            ((pyInt acc).isSome && bracketsOk rest) := by
          simp [bracketContent]
        rw [hbr]
        cases hint : pyInt acc with
        | none =>
          constructor
          · intro hb
            simp at hb
          · intro _
            rfl
        | some n =>
          obtain ⟨h1, h2⟩ := ih.1 []
          constructor
          · intro hb
            simp only [Option.isSome_some, Bool.true_and] at hb
            obtain ⟨ts, hts⟩ := h1 hb
            rw [hts]
            exact ⟨Token.index n :: ts, rfl⟩
          · intro hb
            simp only [Option.isSome_some, Bool.true_and] at hb
            rw [h2 hb]
      · rw [pGo_step_bracket_char c rest acc hcl]
        have hbr : bracketContent acc (c :: rest) =
            bracketContent (acc ++ [c]) rest := by
          simp [bracketContent, hcl]
        rw [hbr]
        exact ih.2 (acc ++ [c])

theorem mem_setDiffKeys (a b : List (String × JsonValue)) (k : String) :
    k ∈ setDiffKeys a b ↔ k ∈ keysOf a ∧ k ∉ keysOf b := by
  unfold setDiffKeys sortedKeys
  rw [List.mem_insertionSort]
  simp [List.mem_filter, List.mem_dedup, List.elem_iff]

theorem sorted_setDiffKeys (a b : List (String × JsonValue)) :
    (setDiffKeys a b).Sorted (fun x y => x ≤ y) :=
  List.sorted_insertionSort _ _

theorem nodup_setDiffKeys (a b : List (String × JsonValue)) :
    (setDiffKeys a b).Nodup :=
  (List.perm_insertionSort _ _).nodup_iff.mpr
    (List.Nodup.filter _ (List.nodup_dedup _))

theorem structural_diff_not_obj (x y : JsonValue)
    (h : isObj x = false ∨ isObj y = false) :
    structural_diff x y = emptyDiffObj := by
  cases x <;> cases y <;> simp_all [structural_diff, isObj]

theorem setDiffKeys_self (l : List (String × JsonValue)) :
    setDiffKeys l l = [] := by
  unfold setDiffKeys
  have h : ((keysOf l).dedup).filter (fun k => !(keysOf l).contains k) = [] := by
    rw [List.filter_eq_nil_iff]
    intro a ha
    simp [List.elem_iff, List.mem_dedup.mp ha]
  rw [h]
  rfl

theorem structural_diff_self (v : JsonValue) :
    structural_diff v v = emptyDiffObj := by
  cases v <;> simp [structural_diff, setDiffKeys_self, emptyDiffObj]

theorem WF_strArr (ks : List String) : WF (.arr (ks.map JsonValue.str)) := by
  apply WF.arr
  intro x hx
  obtain ⟨k, _, rfl⟩ := List.mem_map.mp hx
  exact WF.str k

theorem WF_structural_diff (l r : JsonValue) : WF (structural_diff l r) := by
  have hobj : ∀ ks1 ks2 : List String,
      WF (.obj [("only_in_left", .arr (ks1.map JsonValue.str)),
                ("only_in_right", .arr (ks2.map JsonValue.str))]) := by
    intro ks1 ks2
    apply WF.obj
    · simp [keysOf]
    · intro p hp
      rcases List.mem_cons.mp hp with h | h
      · rw [h]
        exact WF_strArr ks1
      · simp at h
        rw [h]
        exact WF_strArr ks2
  cases l <;> cases r <;>
    first
    | exact hobj _ _
    | · show WF emptyDiffObj
        have h := hobj [] []
        simpa [emptyDiffObj] using h

theorem pick_eq_pickGo (data : JsonValue) (path : String) (toks : List Token)
    (h : parse_path path = .ok toks) : pick data path = pickGo data toks := by
  simp [pick, h]

theorem pickGo_error (cur : JsonValue) (t : Token) (rest : List Token)
    (e : PyError) (h : pySubscript cur t = .error e) :
    pickGo cur (t :: rest) = .error e := by
  simp [pickGo, h]

theorem pySubscript_key_not_obj (v : JsonValue) (k : String)
    (h : isObj v = false) : pySubscript v (.key k) = .error .typeError := by
  cases v <;> simp_all [pySubscript, isObj]

theorem pySubscript_key_absent (fields : List (String × JsonValue))
    (k : String) (h : lookupKey fields k = none) :
    pySubscript (.obj fields) (.key k) = .error .keyError := by
  simp [pySubscript, h]

theorem pySubscript_obj_index (fields : List (String × JsonValue)) (i : Int) :
    pySubscript (.obj fields) (.index i) = .error .keyError := rfl

theorem pySubscript_arr_index_error_iff (xs : List JsonValue) (i : Int) :
    pySubscript (.arr xs) (.index i) = .error .indexError ↔
      ((xs.length : Int) ≤ i ∨ i < -(xs.length : Int)) := by
  simp only [pySubscript, pyListIndex]
  rcases lt_or_le i 0 with hi | hi
  · rw [if_pos hi]
    by_cases hc : (0 : Int) ≤ i + xs.length ∧ i + xs.length < (xs.length : Int)
    · rw [if_pos hc]
      simp only []
      constructor
      · intro h
        exact absurd h (by simp)
      · intro h
        omega
    · rw [if_neg hc]
      simp only []
      constructor
      · intro _
        omega
      · intro _
        trivial
  · rw [if_neg (not_lt.mpr hi)]
    by_cases hc : (0 : Int) ≤ i ∧ i < (xs.length : Int)
    · rw [if_pos hc]
      simp only []
      constructor
      · intro h
        exact absurd h (by simp)
      · intro h
        omega
    · rw [if_neg hc]
      simp only []
      constructor
      · intro _
        omega
      · intro _
        trivial

theorem pySubscript_arr_index_neg (xs : List JsonValue) (i : Int)
    (h1 : -(xs.length : Int) ≤ i) (h2 : i < 0) :
    pySubscript (.arr xs) (.index i) =
      .ok (xs.getD (i + xs.length).toNat .null) := by
  simp only [pySubscript, pyListIndex]
  rw [if_pos h2, if_pos (by constructor <;> omega)]

theorem pySubscript_scalar_index (v : JsonValue) (i : Int)
    (ho : isObj v = false) (ha : isArr v = false) (hs : isStr v = false) :
    pySubscript v (.index i) = .error .typeError := by
  cases v <;> simp_all [pySubscript, isObj, isArr, isStr]

theorem pySubscript_arr_index_nonneg (xs : List JsonValue) (i : Int)
    (h1 : 0 ≤ i) (h2 : i < (xs.length : Int)) :
    pySubscript (.arr xs) (.index i) = .ok (xs.getD i.toNat .null) := by
  simp only [pySubscript, pyListIndex]
  rw [if_neg (not_lt.mpr h1), if_pos (by constructor <;> omega)]

theorem pySubscript_str_index_error_iff (s : String) (i : Int) :
    pySubscript (.str s) (.index i) = .error .indexError ↔
      ((s.data.length : Int) ≤ i ∨ i < -(s.data.length : Int)) := by
  simp only [pySubscript, pyListIndex]
  rcases lt_or_le i 0 with hi | hi
  · rw [if_pos hi]
    by_cases hc : (0 : Int) ≤ i + s.data.length ∧
        i + s.data.length < (s.data.length : Int)
    · rw [if_pos hc]
      simp only []
      constructor
      · intro h
        exact absurd h (by simp)
      · intro h
        omega
    · rw [if_neg hc]
      simp only []
      constructor
      · intro _
        omega
      · intro _
        trivial
  · rw [if_neg (not_lt.mpr hi)]
    by_cases hc : (0 : Int) ≤ i ∧ i < (s.data.length : Int)
    · rw [if_pos hc]
      simp only []
      constructor
      · intro h
        exact absurd h (by simp)
      · intro h
        omega
    · rw [if_neg hc]
      simp only []
      constructor
      · intro _
        omega
      · intro _
        trivial

theorem pySubscript_str_index_nonneg (s : String) (i : Int)
    (h1 : 0 ≤ i) (h2 : i < (s.data.length : Int)) :
    pySubscript (.str s) (.index i) =
      .ok (.str (String.mk [s.data.getD i.toNat ' '])) := by
  simp only [pySubscript, pyListIndex]
  rw [if_neg (not_lt.mpr h1), if_pos (by constructor <;> omega)]

theorem pySubscript_str_index_neg (s : String) (i : Int)
    (h1 : -(s.data.length : Int) ≤ i) (h2 : i < 0) :
    pySubscript (.str s) (.index i) =
      .ok (.str (String.mk [s.data.getD (i + s.data.length).toNat ' '])) := by
  simp only [pySubscript, pyListIndex]
  rw [if_pos h2, if_pos (by constructor <;> omega)]

/-- C1 (corrected): the source's `deep_merge` performs no concatenation or
deduplication on arrays — whenever both operands are arrays, the result is
the right operand unchanged. -/
theorem deep_merge_arrays_right_wins (l r : List JsonValue) :
    deep_merge (.arr l) (.arr r) = .arr r :=
  deep_merge_not_obj (.arr l) (.arr r) (Or.inl rfl)

/-- C1 counterexample: merging the arrays `[1]` and `[2]` yields `[2]`, not
the claimed deduplicated concatenation `[1, 2]`. -/
theorem deep_merge_array_dedup_counterexample :
    deep_merge (.arr [.num 1]) (.arr [.num 2]) = .arr [.num 2] ∧
    JsonValue.arr [.num 2] ≠ .arr [.num 1, .num 2] := by
  constructor
  · simp [deep_merge]
  · intro h
    injection h with h2
    simp at h2

/-- C2 (corrected): the source's `structural_diff` does not flatten to leaf
addresses and reports no `changed` component; for two objects it returns the
dict `{"only_in_left": ks, "only_in_right": ks}` of ascending, duplicate-free
top-level key-set differences, and for any other pair it returns both lists
empty. -/
theorem structural_diff_top_level_keys :
    (∀ (a b : List (String × JsonValue)) (k : String),
      k ∈ setDiffKeys a b ↔ k ∈ keysOf a ∧ k ∉ keysOf b) ∧
    (∀ a b : List (String × JsonValue),
      (setDiffKeys a b).Sorted (fun x y => x ≤ y) ∧ (setDiffKeys a b).Nodup) ∧
    (∀ l r : List (String × JsonValue),
      structural_diff (.obj l) (.obj r) =
        .obj [("only_in_left", .arr ((setDiffKeys l r).map JsonValue.str)),
              ("only_in_right", .arr ((setDiffKeys r l).map JsonValue.str))]) ∧
    (∀ x y : JsonValue, isObj x = false ∨ isObj y = false →
      structural_diff x y = emptyDiffObj) ∧
    structural_diff (.obj [("a", .num 1)])
        (.obj [("a", .num 1), ("b", .num 2)]) =
      .obj [("only_in_left", .arr []), ("only_in_right", .arr [.str "b"])] :=
  ⟨mem_setDiffKeys,
   fun a b => ⟨sorted_setDiffKeys a b, nodup_setDiffKeys a b⟩,
   fun _ _ => rfl,
   structural_diff_not_obj,
   rfl⟩

/-- C2 witness: the non-object branch of the amended claim at concrete
inputs. -/
theorem structural_diff_top_level_keys_witness :
    structural_diff .null (.obj [("a", .num 1)]) = emptyDiffObj :=
  structural_diff_top_level_keys.2.2.2.1 .null (.obj [("a", .num 1)])
    (Or.inl rfl)

/-- C2 counterexample: on the claim's own example the source returns the
`only_in_left`/`only_in_right` dict, not the claimed
`{added, removed, changed}` record. -/
theorem structural_diff_flatten_counterexample :
    structural_diff (.obj [("a", .num 1)])
        (.obj [("a", .num 1), ("b", .num 2)]) ≠
      .obj [("added", .arr [.str "b"]), ("removed", .arr []),
            ("changed", .arr [])] := by
  intro h
  rw [show structural_diff (.obj [("a", .num 1)])
        (.obj [("a", .num 1), ("b", .num 2)]) =
      .obj [("only_in_left", .arr []), ("only_in_right", .arr [.str "b"])]
      from rfl] at h
  injection h with h2
  simp at h2

/-- C3 (corrected): `pick` propagates Python's built-in exceptions rather
than dedicated path errors: a key on a non-dict raises `TypeError`; an absent
key on a dict raises `KeyError`; an index on a dict raises `KeyError`; an
index on a list raises `IndexError` exactly when `i ≥ len` or `i < -len`,
while an in-range negative index counts from the end; an index on a string
succeeds on the character at that position; an index on `null`, a boolean or
a number raises `TypeError`.  Resolution is left to right, stopping at the
first exception. -/
theorem pick_python_errors :
    (∀ (data : JsonValue) (path : String) (toks : List Token),
      parse_path path = .ok toks → pick data path = pickGo data toks) ∧
    (∀ (cur : JsonValue) (t : Token) (rest : List Token) (e : PyError),
      pySubscript cur t = .error e → pickGo cur (t :: rest) = .error e) ∧
    (∀ (v : JsonValue) (k : String), isObj v = false →
      pySubscript v (.key k) = .error .typeError) ∧
    (∀ (fields : List (String × JsonValue)) (k : String),
      lookupKey fields k = none →
      pySubscript (.obj fields) (.key k) = .error .keyError) ∧
    (∀ (fields : List (String × JsonValue)) (i : Int),
      pySubscript (.obj fields) (.index i) = .error .keyError) ∧
    (∀ (xs : List JsonValue) (i : Int),
      pySubscript (.arr xs) (.index i) = .error .indexError ↔
        ((xs.length : Int) ≤ i ∨ i < -(xs.length : Int))) ∧
    (∀ (xs : List JsonValue) (i : Int), -(xs.length : Int) ≤ i → i < 0 →
      pySubscript (.arr xs) (.index i) =
        .ok (xs.getD (i + xs.length).toNat .null)) ∧
    (∀ (v : JsonValue) (i : Int), isObj v = false → isArr v = false →
      isStr v = false → pySubscript v (.index i) = .error .typeError) ∧
    (∀ (xs : List JsonValue) (i : Int), 0 ≤ i → i < (xs.length : Int) →
      pySubscript (.arr xs) (.index i) = .ok (xs.getD i.toNat .null)) ∧
    (∀ (s : String) (i : Int),
      pySubscript (.str s) (.index i) = .error .indexError ↔
        ((s.data.length : Int) ≤ i ∨ i < -(s.data.length : Int))) ∧
    (∀ (s : String) (i : Int), 0 ≤ i → i < (s.data.length : Int) →
      pySubscript (.str s) (.index i) =
        .ok (.str (String.mk [s.data.getD i.toNat ' ']))) ∧
    (∀ (s : String) (i : Int), -(s.data.length : Int) ≤ i → i < 0 →
      pySubscript (.str s) (.index i) =
        .ok (.str (String.mk [s.data.getD (i + s.data.length).toNat ' ']))) :=
  ⟨pick_eq_pickGo, pickGo_error, pySubscript_key_not_obj,
   pySubscript_key_absent, pySubscript_obj_index,
   pySubscript_arr_index_error_iff, pySubscript_arr_index_neg,
   pySubscript_scalar_index, pySubscript_arr_index_nonneg,
   pySubscript_str_index_error_iff, pySubscript_str_index_nonneg,
   pySubscript_str_index_neg⟩

/-- C3 witness: the amended claim applied at concrete inputs, including a
successful in-range negative index and a successful index into a string
returning the one-character string. -/
theorem pick_python_errors_witness :
    pick (.obj [("a", .num 1)]) "a" = pickGo (.obj [("a", .num 1)]) [.key "a"] ∧
    pySubscript (.num 7) (.key "a") = .error .typeError ∧
    pySubscript (.arr [.num 5]) (.index (-1)) = .ok (.num 5) ∧
    pySubscript (.str "abc") (.index 1) = .ok (.str "b") := by
  refine ⟨pick_python_errors.1 (.obj [("a", .num 1)]) "a" [.key "a"] rfl,
    pick_python_errors.2.2.1 (.num 7) "a" rfl, ?_, ?_⟩
  · rw [pick_python_errors.2.2.2.2.2.2.1 [.num 5] (-1) (by decide) (by decide)]
    rfl
  · rw [pick_python_errors.2.2.2.2.2.2.2.2.2.2.1 "abc" 1 (by decide)
      (by decide)]
    rfl

/-- C3 counterexample: a negative index succeeds by counting from the end,
where the claim requires a `PathIndexOutOfRange` failure for `i < 0`. -/
theorem pick_negative_index_counterexample :
    pick (.arr [.num 10, .num 20]) "[-1]" = .ok (.num 20) := rfl

/-- C4 (corrected): `parse_path` fails — with Python's `ValueError`, a single
undifferentiated exception, the only error it can raise — exactly when the
path is not well-bracketed, i.e. when some `[` has no matching `]` before
end-of-string or a bracket's content is not accepted by Python's `int`
(`bracketsOk`); every well-bracketed path parses successfully.  `int` accepts
an optional sign (and underscores between digits), so `"a[-1]"` parses
successfully to a negative index segment rather than failing. -/
theorem parse_path_failure_modes :
    (∀ path : String, bracketsOk path.data = true →
      ∃ ts : List Token, parse_path path = .ok ts) ∧
    (∀ path : String, bracketsOk path.data = false →
      parse_path path = .error .valueError) ∧
    (∀ (path : String) (e : PyError), parse_path path = .error e →
      e = .valueError) ∧
    parse_path "a[2" = .error .valueError ∧
    parse_path "a[x]" = .error .valueError ∧
    parse_path "a[-1]" = .ok [.key "a", .index (-1)] ∧
    parse_path "a[ 2 ]" = .ok [.key "a", .index 2] ∧
    parse_path "a[+1]" = .ok [.key "a", .index 1] ∧
    (∀ path : String, (∀ c ∈ path.data, c ≠ '[') →
      ∃ ts : List Token, parse_path path = .ok ts) := by
  have hok : ∀ path : String, bracketsOk path.data = true →
      ∃ ts : List Token, parse_path path = .ok ts :=
    fun path hb => ((pGo_bracketsOk_dichotomy path.data).1 []).1 hb
  have herr : ∀ path : String, bracketsOk path.data = false →
      parse_path path = .error .valueError :=
    fun path hb => ((pGo_bracketsOk_dichotomy path.data).1 []).2 hb
  refine ⟨hok, herr, ?_, rfl, rfl, rfl, rfl, rfl,
    fun path h => pGo_no_bracket_ok path.data [] h⟩
  intro path e he
  cases hb : bracketsOk path.data with
  | true =>
    obtain ⟨ts, hts⟩ := hok path hb
    rw [hts] at he
    cases he
  | false =>
    have h2 := herr path hb
    rw [h2] at he
    exact (Except.error.inj he).symm

/-- C4 witness: the general characterization applied at concrete paths — a
well-bracketed path parses, a path with an unclosed bracket raises
`ValueError`, and a bracket-free path always parses. -/
theorem parse_path_failure_modes_witness :
    (∃ ts : List Token, parse_path "a[7].b" = .ok ts) ∧
    parse_path "x[" = .error .valueError ∧
    (∃ ts : List Token, parse_path "ab.c" = .ok ts) :=
  ⟨parse_path_failure_modes.1 "a[7].b" (by decide),
   parse_path_failure_modes.2.1 "x[" (by decide),
   parse_path_failure_modes.2.2.2.2.2.2.2.2 "ab.c" (by decide)⟩

/-- C4 counterexample: bracket content `-1` parses to the segment
`Index(-1)` instead of failing with a malformed-path error, so a produced
index segment need not be nonnegative. -/
theorem parse_path_negative_index_counterexample :
    parse_path "a[-1]" = .ok [.key "a", .index (-1)] := rfl

/-- C5 (confirmed): for two objects with distinct keys, `deep_merge` returns
the object whose bindings are `left`'s bindings in `left`'s order — each
shared key bound to the recursive merge of the two values, each left-only key
keeping `left`'s value — followed by the right-only bindings in `right`'s
order; for operands that are not both objects and not both arrays, the result
is `right`. -/
theorem deep_merge_objects_spec :
    (∀ l r : List (String × JsonValue),
      (keysOf l).Nodup → (keysOf r).Nodup →
      deep_merge (.obj l) (.obj r) =
        .obj (l.map (mergedLeftField r) ++
          r.filter (fun p => (lookupKey l p.1).isNone))) ∧
    (∀ x y : JsonValue, (isObj x && isObj y) = false →
      (isArr x && isArr y) = false → deep_merge x y = y) := by
  constructor
  · intro l r hl hr
    rw [deep_merge_obj_obj, mergeInto_eq r l hl hr]
  · intro x y h1 _
    apply deep_merge_not_obj
    cases hx : isObj x
    · exact Or.inl rfl
    · rw [hx] at h1
      exact Or.inr (by simpa using h1)

/-- C5 witness: the merged-object equation at a concrete pair of objects, and
the right-wins rule at two scalars. -/
theorem deep_merge_objects_spec_witness :
    deep_merge (.obj [("a", .num 1), ("x", .num 5)])
        (.obj [("a", .num 2), ("b", .num 3)]) =
      .obj ([("a", .num 1), ("x", .num 5)].map
          (mergedLeftField [("a", .num 2), ("b", .num 3)]) ++
        [("a", .num 2), ("b", .num 3)].filter
          (fun p => (lookupKey [("a", .num 1), ("x", .num 5)] p.1).isNone)) ∧
    deep_merge (.num 1) (.str "s") = .str "s" :=
  ⟨deep_merge_objects_spec.1 [("a", .num 1), ("x", .num 5)]
      [("a", .num 2), ("b", .num 3)] (by decide) (by decide),
   deep_merge_objects_spec.2 (.num 1) (.str "s") rfl rfl⟩

/-- C6 (confirmed): the dotted/bracket grammar — `a.b[2].c` parses to the
four expected segments, a key may be immediately followed by `[` with no
separating dot, keys keep embedded whitespace verbatim, and `.` acts purely
as a separator between two key runs. -/
theorem parse_path_grammar :
    parse_path "a.b[2].c" = .ok [.key "a", .key "b", .index 2, .key "c"] ∧
    parse_path "users[0]" = .ok [.key "users", .index 0] ∧
    parse_path "a b.c d" = .ok [.key "a b", .key "c d"] ∧
    (∀ s t : String, s.data ≠ [] → t.data ≠ [] →
      (∀ c ∈ s.data, c ≠ '.' ∧ c ≠ '[') →
      (∀ c ∈ t.data, c ≠ '.' ∧ c ≠ '[') →
      parse_path (s ++ "." ++ t) = .ok [.key s, .key t]) :=
  ⟨rfl, rfl, rfl, parse_path_dot_sep⟩

/-- C6 witness: the separator rule applied at two concrete keys. -/
theorem parse_path_grammar_witness :
    parse_path ("ab" ++ "." ++ "cd") = .ok [.key "ab", .key "cd"] :=
  parse_path_grammar.2.2.2 "ab" "cd" (by decide) (by decide) (by decide)
    (by decide)

/-- C7 (confirmed): `deep_merge` and `structural_diff` are total over
well-formed JSON values — both always return a well-formed JSON value and
signal no error. -/
theorem merge_diff_total (l r : JsonValue) (hl : WF l) (hr : WF r) :
    WF (deep_merge l r) ∧ WF (structural_diff l r) :=
  ⟨WF_deep_merge r hr l hl, WF_structural_diff l r⟩

/-- C7 witness: totality applied at a concrete object/array pair. -/
theorem merge_diff_total_witness :
    WF (deep_merge (.obj [("a", .num 1)]) (.arr [.null])) ∧
    WF (structural_diff (.obj [("a", .num 1)]) (.arr [.null])) := by
  apply merge_diff_total
  · apply WF.obj
    · decide
    · intro p hp
      simp at hp
      rw [hp]
      exact WF.num 1
  · apply WF.arr
    intro x hx
    simp at hx
    rw [hx]
    exact WF.null

/-- C8 (confirmed): merging any well-formed JSON value with itself gives the
value back, including values containing arrays (for arrays the merge simply
returns the right copy, which equals the original). -/
theorem deep_merge_idempotent (x : JsonValue) (hx : WF x) :
    deep_merge x x = x :=
  deep_merge_self x hx

/-- C8 witness: idempotence at a concrete object containing an array. -/
theorem deep_merge_idempotent_witness :
    deep_merge (.obj [("a", .arr [.num 1, .num 2])])
        (.obj [("a", .arr [.num 1, .num 2])]) =
      .obj [("a", .arr [.num 1, .num 2])] := by
  apply deep_merge_idempotent
  apply WF.obj
  · decide
  · intro p hp
    simp at hp
    rw [hp]
    apply WF.arr
    intro x hx
    simp at hx
    rcases hx with h | h <;> rw [h]
    · exact WF.num 1
    · exact WF.num 2

/-- C9 (corrected): diffing any value with itself reports no differences —
the result is the empty diff dict `{"only_in_left": [], "only_in_right": []}`
(the source has no `added`/`removed`/`changed` components). -/
theorem structural_diff_self_empty (v : JsonValue) :
    structural_diff v v = emptyDiffObj :=
  structural_diff_self v

/-- C9 counterexample: even on equal inputs the result is the
`only_in_left`/`only_in_right` dict, not the claimed
`{added, removed, changed}` record. -/
theorem structural_diff_self_counterexample :
    structural_diff .null .null ≠
      .obj [("added", .arr []), ("removed", .arr []), ("changed", .arr [])] := by
  intro h
  rw [show structural_diff .null .null = emptyDiffObj from rfl] at h
  rw [emptyDiffObj] at h
  injection h with h2
  simp at h2

/-- C10 (confirmed): a character other than `.` that follows `]` starts a new
key segment as if a separator were present — `a[0]b` parses as
`Key a, Index 0, Key b`, and appending any suffix after `a[0]` parses the
same as appending it after `a[0].`. -/
theorem parse_path_key_after_bracket :
    parse_path "a[0]b" = .ok [.key "a", .index 0, .key "b"] ∧
    (∀ s : String, parse_path ("a[0]" ++ s) = parse_path ("a[0]." ++ s)) := by
  constructor
  · rfl
  · intro s
    show pGo ("a[0]" ++ s).data (.plain []) = pGo ("a[0]." ++ s).data (.plain [])
    rw [String.data_append, String.data_append,
      show ("a[0]" : String).data = ['a', '[', '0', ']'] from rfl,
      show ("a[0]." : String).data = ['a', '[', '0', ']', '.'] from rfl]
    simp only [List.cons_append, List.nil_append]
    rw [pGo_a0_start, pGo_a0_start, pGo_step_afterClose_dot,
      pGo_afterClose_eq]

/-- Sanity: underscores between digits are accepted by `int`, hence by the
bracket parser. -/
theorem parse_path_underscore_digits :
    parse_path "a[1_0]" = .ok [.key "a", .index 10] := rfl

/-- Sanity: the empty path parses to the empty token sequence. -/
theorem parse_path_empty : parse_path "" = .ok [] := rfl

/-- Sanity: consecutive separators produce no empty key token. -/
theorem parse_path_consecutive_dots :
    parse_path "a..b" = .ok [.key "a", .key "b"] := rfl

/-- Sanity: the spec's example evaluation through a nested object/array. -/
theorem pick_users_email :
    pick (.obj [("users", .arr [.obj [("email", .str "a@b.com")]])])
      "users[0].email" = .ok (.str "a@b.com") := rfl

/-- Sanity: indexing into a JSON string succeeds in the source, returning a
one-character string. -/
theorem pick_string_index : pick (.str "abc") "[1]" = .ok (.str "b") := rfl

/-- Sanity: the spec's nested-merge example evaluates as documented. -/
theorem deep_merge_spec_example :
    deep_merge
        (.obj [("x", .num 1), ("nested", .obj [("a", .num 1), ("b", .num 2)])])
        (.obj [("nested", .obj [("b", .num 10), ("c", .num 20)]),
               ("y", .num 2)]) =
      .obj [("x", .num 1),
            ("nested", .obj [("a", .num 1), ("b", .num 10), ("c", .num 20)]),
            ("y", .num 2)] := by
  simp [deep_merge, mergeInto, insertOne]
